import Mathlib

/-!
Shallow embedding of the record parser/validator of `tools/utils/osg.py` and of
the aggregation, export and repository-classification routines of
`tools/maintenance.py` (Shchvova/opensourcegames).

Python strings are modelled as `String`/`List Char`; Python's float division in
the statistics code is modelled exactly over `ℚ`; dictionaries of decoded
fields are modelled as association lists.
-/

/-- Whitespace characters removed by Python `str.strip()` (ASCII subset; the
values handled by the tools only ever carry plain spaces). -/
def isSpacePy (c : Char) : Bool :=
  c = ' ' || c = '\t' || c = '\n' || c = '\r'

/-- Python `v.strip()`: drop whitespace from both ends
(`osg.py` line 133, `maintenance.py` line 302). -/
def stripChars (l : List Char) : List Char :=
  ((l.dropWhile isSpacePy).reverse.dropWhile isSpacePy).reverse

/-- Does the list contain a right parenthesis?  (`')' in rest`). -/
def hasRP (l : List Char) : Bool :=
  l.any (fun c => c = ')')

/-- Worker for `removeParens`.  State `none`: outside a parenthesised group;
state `some buf`: the scanner sits inside a candidate match `\([^)]*\)` whose
'(' has been seen and whose body (so far) is `buf` reversed.  If the input ends
while a candidate is open there was no ')' left, the regex match fails and all
buffered characters are emitted literally, exactly as `re.sub` leaves them. -/
def rpAux : Option (List Char) → List Char → List Char
  | none, [] => []
  | some buf, [] => '(' :: buf.reverse
  | none, c :: rest =>
    if c = '(' then rpAux (some []) rest else c :: rpAux none rest
  | some buf, c :: rest =>
    if c = ')' then rpAux none rest else rpAux (some (c :: buf)) rest

/-- `re.sub(r'\([^)]*\)', '', v)` — remove parenthesised substrings
(`osg.py` line 127, `maintenance.py` lines 296 and 733). -/
def removeParens (l : List Char) : List Char :=
  rpAux none l

/-- Python `v.split(', ')` — the strict two-character list separator used by
the validator (`osg.py` line 130). -/
def splitCS : List Char → List (List Char)
  | [] => [[]]
  | [c] => [[c]]
  | c :: d :: rest =>
    if c = ',' ∧ d = ' ' then [] :: splitCS rest
    else
      match splitCS (d :: rest) with
      | [] => [[c]]
      | p :: ps => (c :: p) :: ps

/-- Python `v.split(',')` — the lenient single-character separator used by
`maintenance.py` (lines 299 and 726). -/
def splitComma : List Char → List (List Char)
  | [] => [[]]
  | c :: rest =>
    if c = ',' then [] :: splitComma rest
    else
      match splitComma rest with
      | [] => [[c]]
      | p :: ps => (c :: p) :: ps

/-- `x[1:-1] if x[0] is '<' and x[-1] is '>' else x` (`osg.py` line 139).
The pieces reaching this step are non-empty (empties were filtered just
before), so `head?`/`getLast?` match Python's `x[0]`/`x[-1]`. -/
def unwrap (x : List Char) : List Char :=
  if x.head? = some '<' ∧ x.getLast? = some '>' then x.tail.dropLast else x

/-- The per-field value decoding of `parse_entry` (`osg.py` lines 126-143):
strip parenthesised substrings, split on `', '`, strip whitespace, drop empty
pieces, unwrap `<...>`. -/
def decodeChars (v : List Char) : List (List Char) :=
  (((splitCS (removeParens v)).map stripChars).filter
      (fun x => !x.isEmpty)).map unwrap

/-- `decodeChars` on `String`s. -/
def decodeValue (s : String) : List String :=
  (decodeChars s.data).map (fun l => String.mk l)

/-- `essential_fields` (`osg.py` line 10). -/
def essential_fields : List String :=
  ["Home", "State", "Keywords", "Code repository", "Code language",
   "Code license"]

/-- `valid_fields` (`osg.py` lines 11-12). -/
def valid_fields : List String :=
  ["Home", "Media", "State", "Play", "Download", "Platform", "Keywords",
   "Code repository", "Code language", "Code license", "Code dependencies",
   "Assets license", "Developer", "Build system", "Build instructions"]

/-- `valid_platforms` (`osg.py` line 13). -/
def valid_platforms : List String :=
  ["Windows", "Linux", "macOS", "Android", "iOS", "Web"]

/-- `recommended_keywords` (`osg.py` line 14). -/
def recommended_keywords : List String :=
  ["action", "arcade", "adventure", "visual novel", "sports", "platform",
   "puzzle", "role playing", "simulation", "strategy", "card game",
   "board game", "music", "educational", "tool", "game engine", "framework",
   "library", "remake"]

/-- The field names re-checked after decoding (`osg.py` line 149).  Note that
this literal tuple omits `"code repository"` although `essential_fields`
contains `"Code repository"`. -/
def final_essential_fields : List String :=
  ["home", "state", "keywords", "code language", "code license"]

/-- Python `s.startswith(p)`. -/
def startsWithS (s p : String) : Bool :=
  p.data.isPrefixOf s.data

/-- Python `s.endswith(p)`. -/
def endsWithS (s p : String) : Bool :=
  p.data.isSuffixOf s.data

/-- Python `pat in s` (substring containment). -/
def hasSub (pat : List Char) : List Char → Bool
  | [] => pat.isEmpty
  | c :: rest => pat.isPrefixOf (c :: rest) || hasSub pat rest

/-- ASCII lowercasing of one character, modelling `str.lower()` on the ASCII
field names the schema uses. -/
def charLower (c : Char) : Char :=
  if 'A' ≤ c ∧ c ≤ 'Z' then Char.ofNat (c.toNat + 32) else c

/-- Python `field.lower()` (`osg.py` lines 124 and 146). -/
def lowerName (s : String) : String :=
  String.mk (s.data.map charLower)

/-- The `while index < len(valid_fields) and field != valid_fields[index]:
index += 1` loop of `parse_entry` (`osg.py` lines 110-111), run on the part of
the canonical list from the cursor on; returns the final cursor value. -/
def advLoop (f : String) : Nat → List String → Nat
  | idx, [] => idx
  | idx, v :: rest => if v = f then idx else advLoop f (idx + 1) rest

/-- One advance of the forward cursor: the while loop run on
`canon.drop idx`. -/
def advanceIn (canon : List String) (f : String) (idx : Nat) : Nat :=
  advLoop f idx (canon.drop idx)

/-- Canonical rank of a field name: the cursor position the order scan reaches
for it from the start of the canonical list. -/
def rankIn (canon : List String) (f : String) : Nat :=
  advLoop f 0 canon

/-- The forward-cursor order scan of `parse_entry` (`osg.py` lines 108-113):
each field advances the cursor to its canonical position (the cursor is not
moved past the matched position); hitting the end of the canonical list is a
misordered-or-unknown-field rejection.  The same routine checks platform tags
against `valid_platforms` (`osg.py` lines 195-200). -/
def ordScan (canon : List String) : List String → Nat → Bool
  | [], _ => true
  | f :: rest, idx =>
    let i := advanceIn canon f idx
    if i = canon.length then false else ordScan canon rest i

/-- Each field name must occur exactly once in the document (`osg.py` lines
117-120, modelled at the tokenized field-name level: the source counts the
regex matches of `- <field>: ` in the raw text, which are exactly the
tokenized occurrences of the field name). -/
def uniqueFieldCheck (names : List String) : Bool :=
  names.all (fun f => names.count f == 1)

/-- The decoded `values` mapping: each field is decoded in isolation and
stored under its lowercased name only when the decoding is non-empty
(`osg.py` lines 116-146). -/
def decodeFields (fields : List (String × String)) :
    List (String × List String) :=
  fields.filterMap fun p =>
    let v := decodeValue p.2
    if v.isEmpty then none else some (lowerName p.1, v)

/-- Dictionary lookup in the decoded mapping. -/
def lookupInfo (info : List (String × List String)) (f : String) :
    Option (List String) :=
  (info.find? (fun p => p.1 == f)).map Prod.snd

/-- A decoded state token must be `beta`, `mature` or start with
`inactive since ` (`osg.py` lines 162-164). -/
def stateTokenOk (t : String) : Bool :=
  t == "beta" || t == "mature" || startsWithS t "inactive since "

/-- Line 165 of `osg.py` reads `if 'beta' in v != 'mature' in v:`.  That is a
Python chained comparison: `('beta' in v) and (v != 'mature') and
('mature' in v)`.  The middle comparison puts a list against a string and is
always true, so the guard fires exactly when both tokens are present. -/
def stateBothBetaMature (v : List String) : Bool :=
  v.contains "beta" && v.contains "mature"

/-- The full state-field check of `parse_entry` (`osg.py` lines 160-166):
every token recognized, and the (mis-compiled) exclusivity guard. -/
def stateCheck (v : List String) : Bool :=
  v.all stateTokenOk && !(stateBothBetaMature v)

/-- URL prefixes accepted in `home`/`download`/`play`/`code repository`
(`osg.py` line 179). -/
def urlSchemes : List String :=
  ["http://", "https://", "git://", "svn://", "ftp://", "bzr://"]

/-- One URL is valid when it starts with an allowed scheme and has no space
(`osg.py` lines 179-182). -/
def urlOk (url : String) : Bool :=
  urlSchemes.any (fun p => startsWithS url p) && !(url.data.contains ' ')

/-- URL check over the decoded mapping (`osg.py` lines 176-182). -/
def urlFieldsOk (info : List (String × List String)) : Bool :=
  ["home", "download", "play", "code repository"].all fun f =>
    match lookupInfo info f with
    | none => true
    | some urls => urls.all urlOk

/-- Platform tags must be valid and canonically ordered — the same order scan
as the field check (`osg.py` lines 193-200). -/
def platformOk (info : List (String × List String)) : Bool :=
  match lookupInfo info "platform" with
  | none => true
  | some v => ordScan valid_platforms v 0

/-- There must be at least one keyword and at least one recommended keyword
(`osg.py` lines 202-213). -/
def keywordsOk (info : List (String × List String)) : Bool :=
  match lookupInfo info "keywords" with
  | none => false
  | some kws => recommended_keywords.any (fun k => kws.contains k)

/-- Acceptance verdict of `parse_entry` (`osg.py` lines 98-227) on the
tokenized `(field name, raw value)` list: `true` iff none of the fatal checks
raises.  (Name/description extraction and the vocabulary, naming and hosting
checks only warn and do not affect acceptance.) -/
def parse_entry_accepts (fields : List (String × String)) : Bool :=
  let names := fields.map Prod.fst
  essential_fields.all (fun f => names.contains f) &&
  ordScan valid_fields names 0 &&
  uniqueFieldCheck names &&
  (let info := decodeFields fields
   final_essential_fields.all (fun f => (lookupInfo info f).isSome) &&
   (match lookupInfo info "state" with
    | none => false
    | some v => stateCheck v) &&
   urlFieldsOk info &&
   platformOk info &&
   keywordsOk info)

/-- The four version-control systems of `update_primary_code_repositories`
(`maintenance.py` line 714). -/
inductive Vcs where
  | git
  | svn
  | hg
  | bzr
deriving DecidableEq, Repr

/-- Git service URL prefixes (`maintenance.py` line 665). -/
def git_services : List String :=
  ["https://git.tuxfamily.org/", "http://git.pond.sub.org/",
   "https://gitorious.org/", "https://git.code.sf.net/p/"]

/-- `git_repo` (`maintenance.py` lines 655-671). -/
def git_repo (repo : String) : Option String :=
  if (startsWithS repo "https://" || startsWithS repo "http://") &&
      endsWithS repo ".git" then some repo
  else if git_services.any (fun s => startsWithS repo s) then some repo
  else none

/-- `svn_repo` (`maintenance.py` lines 673-687).  The source compares the
hamsterrepublic URL with Python `is` (object identity); it is modelled as
string equality, the closest value-level reading. -/
def svn_repo (repo : String) : Option String :=
  if startsWithS repo "https://svn.code.sf.net/p/" &&
      endsWithS repo "/code/" then some repo
  else if startsWithS repo "http://svn.uktrainsim.com/svn/" then some repo
  else if repo = "https://rpg.hamsterrepublic.com/source/wip" then some repo
  else none

/-- `hg_repo` (`maintenance.py` lines 690-701). -/
def hg_repo (repo : String) : Option String :=
  if startsWithS repo "https://bitbucket.org/" &&
      !(endsWithS repo ".git") then some repo
  else if startsWithS repo "http://hg." then some repo
  else none

/-- `bzr_repo` (`maintenance.py` lines 704-709). -/
def bzr_repo (repo : String) : Option String :=
  if startsWithS repo "https://code.launchpad.net/" then some repo
  else none

/-- The classification cascade of `update_primary_code_repositories`
(`maintenance.py` lines 735-754): the four predicates are tried in the fixed
priority order git, svn, hg, bzr and the first match wins. -/
def classifyRepo (repo : String) : Option Vcs :=
  if (git_repo repo).isSome then some Vcs.git
  else if (svn_repo repo).isSome then some Vcs.svn
  else if (hg_repo repo).isSome then some Vcs.hg
  else if (bzr_repo repo).isSome then some Vcs.bzr
  else none

/-- The retained URLs of a raw `Code repository` field (`maintenance.py`
lines 726-730): split on commas, keep the first URL plus any later URL
containing the `"(+)"` marker. -/
def retainedRepos (raw : String) : List String :=
  match splitComma raw.data with
  | [] => []
  | r0 :: rest =>
    (r0 :: rest.filter (fun x => hasSub ['(', '+', ')'] x)).map
      (fun l => String.mk l)

/-- Per-URL cleanup before classification (`maintenance.py` lines 733-734):
remove parenthesised content and strip whitespace. -/
def cleanRepo (r : String) : String :=
  String.mk (stripChars (removeParens r.data))

/-- The per-record `consumed` flag (`maintenance.py` lines 722-754): it is set
as soon as any retained URL of the record is classified; an empty raw field
skips the loop and leaves it `False`. -/
def recordConsumed (raw : String) : Bool :=
  if raw = "" then false
  else (retainedRepos raw).any (fun r => (classifyRepo (cleanRepo r)).isSome)

/-- The `unconsumed_entries` list (`maintenance.py` lines 715 and 756-757):
records are `(title, raw code-repository field)` pairs, the raw field being
`none` when the record has no `code repository-raw` entry; a record is listed
iff its field is present and no retained URL was consumed. -/
def unconsumedEntries (records : List (String × Option String)) :
    List (String × String) :=
  records.filterMap fun rec =>
    match rec.2 with
    | none => none
    | some raw => if recordConsumed raw then none else some (rec.1, raw)

/-- Gathering of one facet over the record set (`maintenance.py` lines
445-449 and analogues): records lacking the facet contribute nothing, all
others contribute every element of their multi-value list. -/
def collectFacet (recs : List (Option (List String))) : List String :=
  recs.foldr (fun o acc => o.getD [] ++ acc) []

/-- The frequency table `[(l, occ.count(l) / len(occ)) for l in set(occ)]`
(`maintenance.py` line 452 and analogues), with Python's float division
modelled exactly over `ℚ`.  The set of distinct values is modelled as
`dedup`; its order is irrelevant (the source re-sorts the table). -/
def freqTable (occ : List String) : List (String × ℚ) :=
  occ.dedup.map fun v => (v, (occ.count v : ℚ) / (occ.length : ℚ))

/-- Lexicographic comparison of character lists by code point — Python's `<`
on strings. -/
def ltChars : List Char → List Char → Bool
  | [], [] => false
  | [], _ :: _ => true
  | _ :: _, [] => false
  | a :: as, b :: bs =>
    if a < b then true else if b < a then false else ltChars as bs

/-- Python `a < b` on strings. -/
def ltStr (a b : String) : Bool :=
  ltChars a.data b.data

/-- Stable insertion: `a` is placed before the first element that is not
strictly before it. -/
def insertS (lt : α → α → Bool) (a : α) : List α → List α
  | [] => [a]
  | y :: ys => if lt y a then y :: insertS lt a ys else a :: y :: ys

/-- Stable sort by the strict comparator `lt`.  Python's `list.sort` is
stable, and a stable key sort is extensionally unique, so insertion sort is an
exact model of it. -/
def sortStable (lt : α → α → Bool) : List α → List α
  | [] => []
  | a :: l => insertS lt a (sortStable lt l)

/-- First pass of the inactive ranking (`maintenance.py` line 427):
`entries_inactive.sort(key=lambda x: x[0])` — ascending title. -/
def nameLt (x y : String × String) : Bool :=
  ltStr x.1 y.1

/-- Second pass (`maintenance.py` line 428):
`entries_inactive.sort(key=lambda x: x[1], reverse=True)` — descending
inactivity year; `x` sorts strictly before `y` when `y`'s year is smaller. -/
def yearGt (x y : String × String) : Bool :=
  ltStr y.2 x.2

/-- The inactive listing order (`maintenance.py` lines 426-428): stable sort
by ascending title, then stable sort by descending year. -/
def rankInactive (l : List (String × String)) : List (String × String) :=
  sortStable yearGt (sortStable nameLt l)

/-- The state column of the machine-readable export (`maintenance.py` line
619): `'{} / {}'.format(info['state'][0], 'inactive since {}'.format(
info['inactive']) if 'inactive' in info else 'active')`.  `state` is an
essential field, so `info['state'][0]` is its (non-empty) head. -/
def exportStateColumn (state : List String) (inactive : Option String) :
    String :=
  state.headD "" ++ " / " ++
    (match inactive with
     | some y => "inactive since " ++ y
     | none => "active")

/-- Characterisation predicate for `splitCS` pieces: no occurrence of the
separator `", "`. -/
def hasCS : List Char → Bool
  | c :: d :: rest => (c = ',' && d = ' ') || hasCS (d :: rest)
  | _ => false

/-- Characterisation predicate for `removeParens` outputs: no '(' is followed
by a later ')', i.e. the string contains no match of `\([^)]*\)`. -/
def parenfree : List Char → Bool
  | [] => true
  | c :: rest =>
    (if c = '(' then !hasRP rest else true) && parenfree rest

/-- C5: the repository classifier tests the four URL-pattern predicates in
the fixed priority order git, svn, hg, bzr and files a URL under the first
match: `https://github.com/x/y.git` is git, `https://bitbucket.org/x/y` is
hg, `https://code.launchpad.net/x` is bzr, and `https://example.com/x`
matches none of the four and is left unconsumed (a record whose only
repository URL it is lands on the unconsumed list). -/
theorem c5_classifier_examples :
    classifyRepo "https://github.com/x/y.git" = some Vcs.git ∧
    classifyRepo "https://bitbucket.org/x/y" = some Vcs.hg ∧
    classifyRepo "https://code.launchpad.net/x" = some Vcs.bzr ∧
    classifyRepo "https://example.com/x" = none ∧
    unconsumedEntries [("x", some "https://example.com/x")] =
      [("x", "https://example.com/x")] := by
  decide

/-- C1: the code does not implement the claimed state rule.  Line 165 of
`osg.py` (`if 'beta' in v != 'mature' in v:`) is a chained comparison that
rejects only when both `beta` and `mature` are present, so a record whose
decoded state list contains neither — here `["inactive since 2019"]`, all
tokens recognized — passes `stateCheck` and the whole of `parse_entry`
accepts the record, while the claim (and the source's own comment, "must
contain either beta or mature ... but at least one") requires rejection. -/
theorem c1_state_neither_accepted :
    decodeValue "inactive since 2019" = ["inactive since 2019"] ∧
    stateCheck ["inactive since 2019"] = true ∧
    (["inactive since 2019"] : List String).contains "beta" = false ∧
    (["inactive since 2019"] : List String).contains "mature" = false ∧
    parse_entry_accepts
      [("Home", "https://x.org"), ("State", "inactive since 2019"),
       ("Keywords", "action"),
       ("Code repository", "https://github.com/a/b.git"),
       ("Code language", "C"), ("Code license", "MIT")] = true := by
  decide

/-- C2: the final after-decoding check (`osg.py` line 149) omits
`"code repository"` although `Code repository` is an essential field
(`osg.py` line 10).  A record whose `Code repository` raw value decodes to
zero pieces (here `"(see home)"`, a pure parenthesised comment) stores no
`code repository` entry, yet passes the final check and the whole of
`parse_entry` accepts it, while the claim requires an essential-field-empty
rejection. -/
theorem c2_code_repository_escapes_final_check :
    decodeValue "(see home)" = [] ∧
    "Code repository" ∈ essential_fields ∧
    "code repository" ∉ final_essential_fields ∧
    lookupInfo
      (decodeFields
        [("Home", "https://x.org"), ("State", "mature"),
         ("Keywords", "action"), ("Code repository", "(see home)"),
         ("Code language", "C"), ("Code license", "MIT")])
      "code repository" = none ∧
    parse_entry_accepts
      [("Home", "https://x.org"), ("State", "mature"),
       ("Keywords", "action"), ("Code repository", "(see home)"),
       ("Code language", "C"), ("Code license", "MIT")] = true := by
  decide

/-- C3 fails on the code: in `update_primary_code_repositories` the
`consumed` flag is kept per record, not per URL.  For the record below the
first retained URL is classified as git, so `consumed` is set, and the second
retained URL `https://example.com/z (+)` — which matches none of the four
predicates — is dropped silently: the unconsumed list stays empty although
the claim requires the record to be listed. -/
theorem c3_counterexample :
    retainedRepos "https://github.com/x/y.git,https://example.com/z (+)" =
      ["https://github.com/x/y.git", "https://example.com/z (+)"] ∧
    classifyRepo (cleanRepo "https://example.com/z (+)") = none ∧
    classifyRepo (cleanRepo "https://github.com/x/y.git") = some Vcs.git ∧
    unconsumedEntries
      [("G", some "https://github.com/x/y.git,https://example.com/z (+)")] =
      [] := by
  decide

/-- C6 fails as stated: a non-empty record set can still have zero
occurrences of a facet (here one record without a `platform` field), in which
case the frequency table is empty and its frequencies sum to 0, not 1. -/
theorem c6_counterexample :
    ([none] : List (Option (List String))) ≠ [] ∧
    collectFacet [none] = [] ∧
    ((freqTable (collectFacet [none])).map Prod.snd).sum = 0 ∧
    ((0 : ℚ) ≠ 1) := by
  refine ⟨by decide, by decide, by decide, by norm_num⟩

/-- C6 (amended): for every record set and facet whose total occurrence
count is non-zero, each distinct value's frequency is its occurrence count
divided by the facet's total occurrence count (not the record count), and the
frequencies of all distinct values sum to exactly 1.  (The original claim,
quantified over every non-empty record set, fails when no record carries the
facet; see the counterexample.) -/
theorem c6_amended (recs : List (Option (List String)))
    (h : collectFacet recs ≠ []) :
    ((freqTable (collectFacet recs)).map Prod.snd).sum = 1 ∧
    ∀ p ∈ freqTable (collectFacet recs),
      p.2 = ((collectFacet recs).count p.1 : ℚ) /
        ((collectFacet recs).length : ℚ) := by
  set occ := collectFacet recs with hocc
  constructor
  · have hlen : (occ.length : ℚ) ≠ 0 := by
      have h0 : occ.length ≠ 0 := by
        simpa [List.length_eq_zero] using h
      exact_mod_cast h0
    calc ((freqTable occ).map Prod.snd).sum
        = (occ.dedup.map fun v => (occ.count v : ℚ) * (occ.length : ℚ)⁻¹).sum := by
          simp [freqTable, List.map_map, Function.comp_def, div_eq_mul_inv]
      _ = (occ.dedup.map fun v => (occ.count v : ℚ)).sum * (occ.length : ℚ)⁻¹ :=
          List.sum_map_mul_right _ _ _
      _ = ((occ.dedup.map fun v => occ.count v).sum : ℚ) * (occ.length : ℚ)⁻¹ := by
          rw [Nat.cast_list_sum, List.map_map]
          rfl
      _ = (occ.length : ℚ) * (occ.length : ℚ)⁻¹ := by
          rw [List.sum_map_count_dedup_eq_length]
      _ = 1 := mul_inv_cancel₀ hlen
  · intro p hp
    simp only [freqTable, List.mem_map] at hp
    obtain ⟨v, hv, rfl⟩ := hp
    rfl

/-- C6 witness: three keyword occurrences over one record, frequencies
2/3 + 1/3 = 1. -/
theorem c6_amended_witness :
    collectFacet [some ["a", "a", "b"]] ≠ [] ∧
    ((freqTable (collectFacet [some ["a", "a", "b"]])).map Prod.snd).sum = 1 :=
  ⟨by decide, (c6_amended [some ["a", "a", "b"]] (by decide)).1⟩

/-- C3 (amended): a record's name together with its raw repository field is
added to the unconsumed list iff the field is present and none of its
retained URLs is consumed, where a record counts as consumed exactly when its
raw field is non-empty and at least one retained URL matches one of the four
version-control predicates.  Consequently, when at least one retained URL of
a record is classified, its remaining non-matching retained URLs are dropped
silently (see the counterexample): the original per-URL claim fails. -/
theorem c3_amended (records : List (String × Option String))
    (title raw : String) :
    ((title, raw) ∈ unconsumedEntries records ↔
      (title, some raw) ∈ records ∧ recordConsumed raw = false) ∧
    (recordConsumed raw = true ↔
      raw ≠ "" ∧ ∃ r ∈ retainedRepos raw,
        (classifyRepo (cleanRepo r)).isSome = true) := by
  constructor
  · simp only [unconsumedEntries, List.mem_filterMap]
    constructor
    · rintro ⟨⟨t, o⟩, hmem, hf⟩
      cases o with
      | none => simp at hf
      | some raw2 =>
        by_cases hc : recordConsumed raw2
        · simp [hc] at hf
        · simp only [hc, if_neg, Bool.false_eq_true, ite_false] at hf
          rw [Option.some_inj, Prod.mk.injEq] at hf
          obtain ⟨rfl, rfl⟩ := hf
          exact ⟨hmem, Bool.eq_false_iff.mpr hc⟩
    · rintro ⟨hmem, hc⟩
      exact ⟨(title, some raw), hmem, by simp [hc]⟩
  · unfold recordConsumed
    by_cases h0 : raw = ""
    · simp [h0]
    · simp [h0, List.any_eq_true]

/-- C9: for every record of the export, the state column is
`"<primary-state> / inactive since <year>"` when the record carries an
inactivity year and `"<primary-state> / active"` otherwise, the primary state
being the first token of the decoded state list. -/
theorem c9_export_state (s y : String) (rest : List String) :
    exportStateColumn (s :: rest) (some y) = s ++ " / inactive since " ++ y ∧
    exportStateColumn (s :: rest) none = s ++ " / active" := by
  constructor
  · apply String.ext
    simp only [exportStateColumn, String.data_append, List.headD]
    simp [List.append_assoc]
  · apply String.ext
    simp only [exportStateColumn, String.data_append, List.headD]
    simp [List.append_assoc]

theorem mem_insertS (lt : α → α → Bool) (a x : α) :
    ∀ m : List α, x ∈ insertS lt a m → x = a ∨ x ∈ m := by
  intro m
  induction m with
  | nil =>
    intro h
    simp [insertS] at h
    exact Or.inl h
  | cons y ys ih =>
    intro h
    simp only [insertS] at h
    by_cases hlt : lt y a = true
    · rw [if_pos hlt] at h
      rcases List.mem_cons.mp h with h1 | h1
      · exact Or.inr (by simp [h1])
      · rcases ih h1 with h2 | h2
        · exact Or.inl h2
        · exact Or.inr (List.mem_cons_of_mem y h2)
    · rw [if_neg hlt] at h
      rcases List.mem_cons.mp h with h1 | h1
      · exact Or.inl h1
      · exact Or.inr h1

theorem insertS_pairwise (lt : α → α → Bool) (P : α → α → Prop)
    (hasym : ∀ x y, lt x y = true → lt y x = false)
    (hneg : ∀ x y z, lt x z = true → lt x y = true ∨ lt y z = true)
    (a : α) :
    ∀ m : List α,
      m.Pairwise (fun x y => lt y x = false ∧ (lt x y = true ∨ P x y)) →
      (∀ y ∈ m, P a y) →
      (insertS lt a m).Pairwise
        (fun x y => lt y x = false ∧ (lt x y = true ∨ P x y)) := by
  intro m
  induction m with
  | nil =>
    intro _ _
    simp [insertS]
  | cons y ys ih =>
    intro hp hP
    rw [List.pairwise_cons] at hp
    obtain ⟨hy, hys⟩ := hp
    simp only [insertS]
    by_cases hlt : lt y a = true
    · rw [if_pos hlt, List.pairwise_cons]
      refine ⟨fun z hz => ?_,
        ih hys (fun z hz => hP z (List.mem_cons_of_mem y hz))⟩
      rcases mem_insertS lt a z ys hz with h1 | h1
      · subst h1
        exact ⟨hasym y z hlt, Or.inl hlt⟩
      · exact hy z h1
    · rw [if_neg hlt, List.pairwise_cons]
      have hyaf : lt y a = false := Bool.eq_false_iff.mpr hlt
      refine ⟨fun z hz => ?_, List.pairwise_cons.mpr ⟨hy, hys⟩⟩
      rcases List.mem_cons.mp hz with h1 | h1
      · subst h1
        exact ⟨hyaf, Or.inr (hP z (List.mem_cons_self z ys))⟩
      · refine ⟨?_, Or.inr (hP z (List.mem_cons_of_mem y h1))⟩
        by_contra hza
        have hza2 : lt z a = true := by
          cases hza3 : lt z a with
          | false => exact absurd hza3 hza
          | true => rfl
        rcases hneg z y a hza2 with h2 | h2
        · rw [(hy z h1).1] at h2
          exact Bool.false_ne_true h2
        · rw [hyaf] at h2
          exact Bool.false_ne_true h2

theorem mem_sortStable (lt : α → α → Bool) (x : α) :
    ∀ l : List α, x ∈ sortStable lt l → x ∈ l := by
  intro l
  induction l with
  | nil =>
    intro h
    simp [sortStable] at h
  | cons a l ih =>
    intro h
    rcases mem_insertS lt a x (sortStable lt l) h with h1 | h1
    · exact h1 ▸ List.mem_cons_self a l
    · exact List.mem_cons_of_mem a (ih h1)

theorem sortStable_pairwise (lt : α → α → Bool) (P : α → α → Prop)
    (hasym : ∀ x y, lt x y = true → lt y x = false)
    (hneg : ∀ x y z, lt x z = true → lt x y = true ∨ lt y z = true) :
    ∀ l : List α, l.Pairwise P →
      (sortStable lt l).Pairwise
        (fun x y => lt y x = false ∧ (lt x y = true ∨ P x y)) := by
  intro l
  induction l with
  | nil =>
    intro _
    simp [sortStable]
  | cons a l ih =>
    intro hp
    rw [List.pairwise_cons] at hp
    obtain ⟨ha, hl⟩ := hp
    exact insertS_pairwise lt P hasym hneg a (sortStable lt l) (ih hl)
      (fun y hy => ha y (mem_sortStable lt y l hy))

theorem ltChars_asymm : ∀ a b : List Char, ltChars a b = true → ltChars b a = false := by
  intro a
  induction a with
  | nil =>
    intro b h
    cases b with
    | nil => simp [ltChars] at h
    | cons c cs => simp [ltChars]
  | cons x xs ih =>
    intro b h
    cases b with
    | nil => simp [ltChars] at h
    | cons y ys =>
      simp only [ltChars] at h ⊢
      by_cases hxy : x < y
      · rw [if_neg (lt_asymm hxy), if_pos hxy]
      · rw [if_neg hxy] at h
        by_cases hyx : y < x
        · rw [if_pos hyx] at h
          exact absurd h (by simp)
        · rw [if_neg hyx] at h
          rw [if_neg hyx, if_neg hxy]
          exact ih ys h

theorem ltChars_negtrans : ∀ a b c : List Char, ltChars a c = true →
    ltChars a b = true ∨ ltChars b c = true := by
  intro a
  induction a with
  | nil =>
    intro b c h
    cases c with
    | nil => simp [ltChars] at h
    | cons z zs =>
      cases b with
      | nil => exact Or.inr h
      | cons y ys => exact Or.inl (by simp [ltChars])
  | cons x xs ih =>
    intro b c h
    cases c with
    | nil => simp [ltChars] at h
    | cons z zs =>
      cases b with
      | nil => exact Or.inr (by simp [ltChars])
      | cons y ys =>
        simp only [ltChars] at h ⊢
        by_cases hxz : x < z
        · by_cases hxy : x < y
          · exact Or.inl (by rw [if_pos hxy])
          · have hyz : y < z := lt_of_le_of_lt (not_lt.mp hxy) hxz
            exact Or.inr (by rw [if_pos hyz])
        · rw [if_neg hxz] at h
          by_cases hzx : z < x
          · rw [if_pos hzx] at h
            exact absurd h (by simp)
          · rw [if_neg hzx] at h
            have hxzeq : x = z := le_antisymm (not_lt.mp hzx) (not_lt.mp hxz)
            by_cases hxy : x < y
            · exact Or.inl (by rw [if_pos hxy])
            · by_cases hyx : y < x
              · have hyz : y < z := hxzeq ▸ hyx
                exact Or.inr (by rw [if_pos hyz])
              · rcases ih ys zs h with h1 | h1
                · exact Or.inl (by rw [if_neg hxy, if_neg hyx]; exact h1)
                · refine Or.inr ?_
                  have hyz : ¬ y < z := hxzeq ▸ hyx
                  have hzy : ¬ z < y := hxzeq ▸ hxy
                  rw [if_neg hyz, if_neg hzy]
                  exact h1

/-- C7: for every set of inactive records, the inactive listing (two stable
sorting passes: by ascending name, then by descending inactivity year) puts a
record before another only when its year is not smaller and, if the years are
equal, its name is not larger — i.e. descending year with ascending-name
tiebreak; in particular years 2018, 2020, 2020 with names B, A, C come out as
2020/A, 2020/C, 2018/B. -/
theorem c7_inactive_ranking :
    (∀ l : List (String × String),
      (rankInactive l).Pairwise (fun a b =>
        ltStr a.2 b.2 = false ∧
          (ltStr b.2 a.2 = true ∨ ltStr b.1 a.1 = false))) ∧
    rankInactive [("B", "2018"), ("A", "2020"), ("C", "2020")] =
      [("A", "2020"), ("C", "2020"), ("B", "2018")] := by
  constructor
  · intro l
    have htriv : l.Pairwise (fun _ _ => True) := by
      induction l with
      | nil => exact List.Pairwise.nil
      | cons a l ih => exact List.Pairwise.cons (fun _ _ => trivial) ih
    have h1 : (sortStable nameLt l).Pairwise (fun a b => nameLt b a = false) := by
      have h := sortStable_pairwise nameLt (fun _ _ => True)
        (fun x y hxy => ltChars_asymm _ _ hxy)
        (fun x y z hxz => ltChars_negtrans _ _ _ hxz)
        l htriv
      exact h.imp (fun hab => hab.1)
    have h2 := sortStable_pairwise yearGt (fun a b => nameLt b a = false)
      (fun x y hxy => ltChars_asymm _ _ hxy)
      (fun x y z hxz => Or.symm (ltChars_negtrans _ _ _ hxz))
      (sortStable nameLt l) h1
    exact h2
  · decide

theorem advLoop_shift (f : String) :
    ∀ (L : List String) (idx : Nat), advLoop f idx L = idx + advLoop f 0 L := by
  intro L
  induction L with
  | nil => intro idx; simp [advLoop]
  | cons v rest ih =>
    intro idx
    simp only [advLoop]
    by_cases hv : v = f
    · simp [hv]
    · rw [if_neg hv, if_neg hv, ih (idx + 1), ih 1]
      omega

theorem rankIn_le_length (f : String) :
    ∀ L : List String, rankIn L f ≤ L.length := by
  intro L
  induction L with
  | nil => simp [rankIn, advLoop]
  | cons v rest ih =>
    simp only [rankIn, advLoop, List.length_cons]
    by_cases hv : v = f
    · simp [hv]
    · rw [if_neg hv, advLoop_shift f rest 1]
      have := ih
      simp only [rankIn] at this
      omega

theorem rankIn_getD (f : String) :
    ∀ L : List String, rankIn L f < L.length → L.getD (rankIn L f) "" = f := by
  intro L
  induction L with
  | nil => intro h; simp [rankIn, advLoop] at h
  | cons v rest ih =>
    intro h
    simp only [rankIn, advLoop] at h ⊢
    by_cases hv : v = f
    · simp [hv]
    · rw [if_neg hv] at h ⊢
      rw [advLoop_shift f rest 1] at h ⊢
      have h2 : advLoop f 0 rest < rest.length := by
        simp only [List.length_cons] at h
        omega
      have h3 := ih h2
      simp only [rankIn] at h3
      have h4 : 1 + advLoop f 0 rest = advLoop f 0 rest + 1 := by omega
      rw [h4, List.getD_cons_succ]
      exact h3

theorem rankIn_min (f : String) :
    ∀ (L : List String) (k : Nat), k < L.length → L.getD k "" = f →
      rankIn L f ≤ k := by
  intro L
  induction L with
  | nil => intro k hk; simp at hk
  | cons v rest ih =>
    intro k hk hget
    simp only [rankIn, advLoop]
    by_cases hv : v = f
    · simp [hv]
    · rw [if_neg hv, advLoop_shift f rest 1]
      cases k with
      | zero =>
        simp only [List.getD_cons_zero] at hget
        exact absurd hget hv
      | succ k =>
        rw [List.getD_cons_succ] at hget
        have hk2 : k < rest.length := by
          simp only [List.length_cons] at hk
          omega
        have := ih k hk2 hget
        simp only [rankIn] at this
        omega

theorem getD_drop_add (d : String) :
    ∀ (L : List String) (i j : Nat),
      (L.drop i).getD j d = L.getD (i + j) d := by
  intro L
  induction L with
  | nil => intro i j; simp
  | cons x xs ih =>
    intro i j
    cases i with
    | zero => simp
    | succ i =>
      rw [List.drop_succ_cons]
      rw [ih i j]
      have : i + 1 + j = (i + j) + 1 := by omega
      rw [this, List.getD_cons_succ]

theorem advanceIn_eq (canon : List String) (f : String) (idx : Nat) :
    advanceIn canon f idx = idx + rankIn (canon.drop idx) f := by
  simp only [advanceIn, rankIn]
  exact advLoop_shift f (canon.drop idx) idx

theorem advanceIn_ge (canon : List String) (f : String) (idx : Nat) :
    idx ≤ advanceIn canon f idx := by
  rw [advanceIn_eq]
  omega

theorem advanceIn_le (canon : List String) (f : String) (idx : Nat)
    (h : idx ≤ canon.length) : advanceIn canon f idx ≤ canon.length := by
  rw [advanceIn_eq]
  have h2 := rankIn_le_length f (canon.drop idx)
  rw [List.length_drop] at h2
  omega

theorem advanceIn_found (canon : List String) (f : String) (idx : Nat)
    (h : idx ≤ canon.length) (hne : advanceIn canon f idx ≠ canon.length) :
    advanceIn canon f idx < canon.length ∧
      canon.getD (advanceIn canon f idx) "" = f := by
  have hle := advanceIn_le canon f idx h
  have hlt : advanceIn canon f idx < canon.length := lt_of_le_of_ne hle hne
  refine ⟨hlt, ?_⟩
  rw [advanceIn_eq] at hlt ⊢
  have hr : rankIn (canon.drop idx) f < (canon.drop idx).length := by
    rw [List.length_drop]
    omega
  have hg := rankIn_getD f (canon.drop idx) hr
  rw [getD_drop_add] at hg
  exact hg

theorem advanceIn_eq_rankIn (canon : List String) (f : String) (idx : Nat)
    (hnd : canon.Nodup) (h : idx ≤ canon.length)
    (hne : advanceIn canon f idx ≠ canon.length) :
    advanceIn canon f idx = rankIn canon f := by
  obtain ⟨hlt, hget⟩ := advanceIn_found canon f idx h hne
  have hrle : rankIn canon f ≤ advanceIn canon f idx :=
    rankIn_min f canon _ hlt hget
  have hrlt : rankIn canon f < canon.length := lt_of_le_of_lt hrle hlt
  have hrget : canon.getD (rankIn canon f) "" = f := rankIn_getD f canon hrlt
  have hgg : canon.getD (rankIn canon f) "" =
      canon.getD (advanceIn canon f idx) "" := by rw [hget, hrget]
  rw [List.getD_eq_getElem _ _ hrlt, List.getD_eq_getElem _ _ hlt] at hgg
  exact ((List.Nodup.getElem_inj_iff hnd).mp hgg).symm

theorem ordScan_ranks (canon : List String) (hnd : canon.Nodup) :
    ∀ (l : List String) (idx : Nat), idx ≤ canon.length →
      ordScan canon l idx = true →
      (∀ f ∈ l, idx ≤ rankIn canon f ∧ rankIn canon f < canon.length) ∧
      l.Pairwise (fun a b => rankIn canon a ≤ rankIn canon b) := by
  intro l
  induction l with
  | nil =>
    intro idx _ _
    exact ⟨by simp, List.Pairwise.nil⟩
  | cons f rest ih =>
    intro idx hidx hscan
    simp only [ordScan] at hscan
    by_cases hi : advanceIn canon f idx = canon.length
    · rw [if_pos hi] at hscan
      exact absurd hscan (by simp)
    · rw [if_neg hi] at hscan
      have heq := advanceIn_eq_rankIn canon f idx hnd hidx hi
      have hge := advanceIn_ge canon f idx
      have hfound := advanceIn_found canon f idx hidx hi
      have hlt : rankIn canon f < canon.length := heq ▸ hfound.1
      have hile : advanceIn canon f idx ≤ canon.length := le_of_lt hfound.1
      have IH := ih (advanceIn canon f idx) hile hscan
      constructor
      · intro g hg
        rcases List.mem_cons.mp hg with h1 | h1
        · subst h1
          exact ⟨heq ▸ hge, hlt⟩
        · have hgg := IH.1 g h1
          refine ⟨le_trans hge hgg.1, hgg.2⟩
      · rw [List.pairwise_cons]
        refine ⟨fun g hg => ?_, IH.2⟩
        have hgg := (IH.1 g hg).1
        rw [heq] at hgg
        exact hgg

/-- C4: any field list presenting a field whose canonical rank is lower than
that of an earlier field is rejected by the forward-cursor order scan — the
list is never silently reordered or accepted. -/
theorem c4_misordered_rejected (fields : List String) (i j : Nat)
    (hij : i < j) (hj : j < fields.length)
    (hr : rankIn valid_fields (fields.getD j "") <
      rankIn valid_fields (fields.getD i "")) :
    ordScan valid_fields fields 0 = false := by
  have hnd : valid_fields.Nodup := by decide
  cases hscan : ordScan valid_fields fields 0 with
  | false => rfl
  | true =>
    exfalso
    have hp := (ordScan_ranks valid_fields hnd fields 0 (by omega) hscan).2
    rw [List.pairwise_iff_get] at hp
    have hi : i < fields.length := lt_trans hij hj
    have hij2 := hp ⟨i, hi⟩ ⟨j, hj⟩ hij
    simp only [List.get_eq_getElem] at hij2
    rw [List.getD_eq_getElem _ _ hj, List.getD_eq_getElem _ _ hi] at hr
    omega

/-- C4 witness: `Code language` before `Home` is rejected. -/
theorem c4_witness :
    (0 : Nat) < 1 ∧ 1 < (["Code language", "Home"] : List String).length ∧
    rankIn valid_fields ((["Code language", "Home"] : List String).getD 1 "") <
      rankIn valid_fields ((["Code language", "Home"] : List String).getD 0 "") ∧
    ordScan valid_fields ["Code language", "Home"] 0 = false :=
  ⟨by decide, by decide, by decide,
    c4_misordered_rejected ["Code language", "Home"] 0 1 (by decide) (by decide)
      (by decide)⟩

theorem advanceIn_self (canon : List String) (f : String) (idx : Nat)
    (hlt : idx < canon.length) (hget : canon.getD idx "" = f) :
    advanceIn canon f idx = idx := by
  unfold advanceIn
  rw [List.drop_eq_getElem_cons hlt]
  rw [List.getD_eq_getElem _ _ hlt] at hget
  unfold advLoop
  rw [if_pos hget]

theorem ordScan_dup_eq (canon : List String) (f : String) (l2 : List String) :
    ∀ (l1 : List String) (idx : Nat), idx ≤ canon.length →
      ordScan canon (l1 ++ f :: f :: l2) idx =
        ordScan canon (l1 ++ f :: l2) idx := by
  intro l1
  induction l1 with
  | nil =>
    intro idx hidx
    simp only [List.nil_append, ordScan]
    by_cases hi : advanceIn canon f idx = canon.length
    · rw [if_pos hi, if_pos hi]
    · rw [if_neg hi, if_neg hi]
      have hfound := advanceIn_found canon f idx hidx hi
      have hself := advanceIn_self canon f (advanceIn canon f idx)
        hfound.1 hfound.2
      rw [hself, if_neg hi]
  | cons g l1 ih =>
    intro idx hidx
    simp only [List.cons_append, ordScan]
    by_cases hi : advanceIn canon g idx = canon.length
    · rw [if_pos hi, if_pos hi]
    · rw [if_neg hi, if_neg hi]
      exact ih _ (le_of_lt (advanceIn_found canon g idx hidx hi).1)

/-- C10: duplicating a field name in immediate succession never changes the
verdict of the forward-cursor order scan (the cursor is not advanced past a
matched position, so the repeated name re-matches it); such a list is instead
always rejected by the separate each-field-occurs-exactly-once check. -/
theorem c10_adjacent_duplicate (l1 l2 : List String) (f : String) :
    ordScan valid_fields (l1 ++ f :: f :: l2) 0 =
      ordScan valid_fields (l1 ++ f :: l2) 0 ∧
    uniqueFieldCheck (l1 ++ f :: f :: l2) = false := by
  constructor
  · exact ordScan_dup_eq valid_fields f l2 l1 0 (by omega)
  · unfold uniqueFieldCheck
    rw [Bool.eq_false_iff]
    intro hall
    rw [List.all_eq_true] at hall
    have hf := hall f (by simp)
    rw [beq_iff_eq] at hf
    rw [List.count_append, List.count_cons_self, List.count_cons_self] at hf
    omega

/-- C8 fails as stated: value decoding is not idempotent.  The single-value
list `["<a>"]` is the decoding of `"<<a>>"` (the filter for empty pieces runs
before the bracket unwrapping, which removes exactly one bracket layer), but
decoding `"<a>"` again yields `["a"]`. -/
theorem c8_counterexample :
    decodeValue "<<a>>" = ["<a>"] ∧ decodeValue "<a>" = ["a"] ∧
    ("<a>" : String) ≠ "a" := by
  refine ⟨by decide, by decide, by decide⟩

theorem hasCS_cons (c : Char) (l : List Char) (h : hasCS (c :: l) = false) :
    hasCS l = false := by
  cases l with
  | nil => rfl
  | cons d r =>
    simp only [hasCS, Bool.or_eq_false_iff] at h
    exact h.2

theorem hasCS_append_right (m w : List Char) (h : hasCS m = true) :
    hasCS (m ++ w) = true := by
  induction m with
  | nil => simp [hasCS] at h
  | cons c m ih =>
    cases m with
    | nil => simp [hasCS] at h
    | cons d r =>
      simp only [hasCS, Bool.or_eq_true] at h
      rcases h with h | h
      · simp only [List.cons_append, hasCS, Bool.or_eq_true]
        exact Or.inl h
      · simp only [List.cons_append, hasCS, Bool.or_eq_true]
        have := ih h
        simp only [List.cons_append] at this
        exact Or.inr this

theorem hasCS_append_left (u m : List Char) (h : hasCS (u ++ m) = false) :
    hasCS m = false := by
  induction u with
  | nil => exact h
  | cons a u ih =>
    rw [List.cons_append] at h
    exact ih (hasCS_cons a (u ++ m) h)

theorem hasCS_mid (u m w : List Char) (h : hasCS (u ++ m ++ w) = false) :
    hasCS m = false := by
  have h2 : hasCS (m ++ w) = false := hasCS_append_left u (m ++ w) (by
    rw [List.append_assoc] at h
    exact h)
  cases h3 : hasCS m with
  | false => rfl
  | true => rw [hasCS_append_right m w h3] at h2; exact absurd h2 (by simp)

theorem parenfree_cons (c : Char) (l : List Char)
    (h : parenfree (c :: l) = true) : parenfree l = true := by
  simp only [parenfree, Bool.and_eq_true] at h
  exact h.2

theorem parenfree_append_left (u m : List Char)
    (h : parenfree (u ++ m) = true) : parenfree m = true := by
  induction u with
  | nil => exact h
  | cons a u ih =>
    rw [List.cons_append] at h
    exact ih (parenfree_cons a (u ++ m) h)

theorem parenfree_append_right (m w : List Char)
    (h : parenfree (m ++ w) = true) : parenfree m = true := by
  induction m with
  | nil => rfl
  | cons c r ih =>
    rw [List.cons_append] at h
    simp only [parenfree, Bool.and_eq_true] at h ⊢
    refine ⟨?_, ih h.2⟩
    by_cases hc : c = '('
    · rw [if_pos hc] at h ⊢
      have h1 := h.1
      simp only [hasRP, List.any_append, Bool.not_eq_true', Bool.or_eq_false_iff] at h1 ⊢
      exact h1.1
    · rw [if_neg hc]

theorem parenfree_mid (u m w : List Char)
    (h : parenfree (u ++ m ++ w) = true) : parenfree m = true := by
  have h2 : parenfree (m ++ w) = true := parenfree_append_left u (m ++ w) (by
    rw [List.append_assoc] at h
    exact h)
  exact parenfree_append_right m w h2

theorem no_rp_parenfree (l : List Char) (h : hasRP l = false) :
    parenfree l = true := by
  induction l with
  | nil => rfl
  | cons c r ih =>
    simp only [hasRP, List.any_cons, Bool.or_eq_false_iff] at h
    simp only [parenfree, Bool.and_eq_true]
    refine ⟨?_, ih (by simp only [hasRP]; exact h.2)⟩
    by_cases hc : c = '('
    · rw [if_pos hc]
      simp only [hasRP, Bool.not_eq_true']
      exact h.2
    · rw [if_neg hc]

theorem rpAux_some_no_rp :
    ∀ (l : List Char), hasRP l = false → ∀ buf : List Char,
      rpAux (some buf) l = '(' :: buf.reverse ++ l := by
  intro l
  induction l with
  | nil =>
    intro _ buf
    simp [rpAux]
  | cons c r ih =>
    intro h buf
    simp only [hasRP, List.any_cons, Bool.or_eq_false_iff] at h
    have hc : ¬ c = ')' := by
      intro hc
      rw [hc] at h
      simp at h
    simp only [rpAux, if_neg hc]
    rw [ih (by simp only [hasRP]; exact h.2) (c :: buf)]
    simp

theorem removeParens_id (l : List Char) (h : parenfree l = true) :
    removeParens l = l := by
  induction l with
  | nil => rfl
  | cons c r ih =>
    simp only [parenfree, Bool.and_eq_true] at h
    by_cases hc : c = '('
    · rw [if_pos hc] at h
      have hr : hasRP r = false := by
        have h1 := h.1
        simp only [Bool.not_eq_true'] at h1
        exact h1
      simp only [removeParens, rpAux, if_pos hc]
      rw [rpAux_some_no_rp r hr []]
      simp [hc]
    · simp only [removeParens, rpAux, if_neg hc]
      have := ih h.2
      simp only [removeParens] at this
      rw [this]

theorem rpAux_parenfree (l : List Char) :
    (∀ buf : List Char, hasRP buf = false →
      parenfree (rpAux (some buf) l) = true) ∧
    parenfree (rpAux none l) = true := by
  induction l with
  | nil =>
    constructor
    · intro buf hbuf
      simp only [rpAux]
      have hrev : hasRP buf.reverse = false := by
        simp only [hasRP, List.any_reverse]
        exact hbuf
      simp only [parenfree, Bool.and_eq_true, List.append_nil]
      refine ⟨?_, no_rp_parenfree _ hrev⟩
      simp only [if_true, ite_true, Bool.not_eq_true']
      exact hrev
    · rfl
  | cons c r ih =>
    constructor
    · intro buf hbuf
      by_cases hc : c = ')'
      · simp only [rpAux, if_pos hc]
        exact ih.2
      · simp only [rpAux, if_neg hc]
        refine ih.1 (c :: buf) ?_
        simp only [hasRP, List.any_cons, Bool.or_eq_false_iff]
        constructor
        · simp [hc]
        · simp only [hasRP] at hbuf
          exact hbuf
    · by_cases hc : c = '('
      · simp only [rpAux, if_pos hc]
        exact ih.1 [] rfl
      · simp only [rpAux, if_neg hc]
        simp only [parenfree, Bool.and_eq_true, if_neg hc]
        exact ⟨trivial, ih.2⟩

theorem removeParens_parenfree (l : List Char) :
    parenfree (removeParens l) = true :=
  (rpAux_parenfree l).2

theorem splitCS_ne_nil (l : List Char) : splitCS l ≠ [] := by
  cases l with
  | nil => simp [splitCS]
  | cons c t =>
    cases t with
    | nil => simp [splitCS]
    | cons d r =>
      simp only [splitCS]
      by_cases h : c = ',' ∧ d = ' '
      · rw [if_pos h]
        simp
      · rw [if_neg h]
        cases hs : splitCS (d :: r) with
        | nil => simp
        | cons p ps => simp

theorem splitCS_head_shape (d : Char) (r p0 : List Char) (ps : List (List Char))
    (h : splitCS (d :: r) = p0 :: ps) : p0 = [] ∨ ∃ q, p0 = d :: q := by
  cases r with
  | nil =>
    simp only [splitCS] at h
    obtain ⟨h1, _⟩ := List.cons.injEq .. ▸ h
    exact Or.inr ⟨[], by rw [← h1]⟩
  | cons e r2 =>
    simp only [splitCS] at h
    by_cases hsep : d = ',' ∧ e = ' '
    · rw [if_pos hsep] at h
      obtain ⟨h1, _⟩ := List.cons.injEq .. ▸ h
      exact Or.inl h1.symm
    · rw [if_neg hsep] at h
      cases hs : splitCS (e :: r2) with
      | nil => exact absurd hs (splitCS_ne_nil (e :: r2))
      | cons p1 ps1 =>
        rw [hs] at h
        obtain ⟨h1, _⟩ := List.cons.injEq .. ▸ h
        exact Or.inr ⟨p1, h1.symm⟩

theorem splitCS_noCS : ∀ (n : Nat) (l : List Char), l.length ≤ n →
    ∀ p ∈ splitCS l, hasCS p = false := by
  intro n
  induction n with
  | zero =>
    intro l hl p hp
    have hnil : l = [] := List.length_eq_zero.mp (Nat.le_zero.mp hl)
    subst hnil
    simp only [splitCS, List.mem_singleton] at hp
    subst hp
    rfl
  | succ n ih =>
    intro l hl p hp
    cases l with
    | nil =>
      simp only [splitCS, List.mem_singleton] at hp
      subst hp
      rfl
    | cons c t =>
      cases t with
      | nil =>
        simp only [splitCS, List.mem_singleton] at hp
        subst hp
        rfl
      | cons d r =>
        simp only [splitCS] at hp
        by_cases hsep : c = ',' ∧ d = ' '
        · rw [if_pos hsep] at hp
          rcases List.mem_cons.mp hp with h1 | h1
          · subst h1
            rfl
          · refine ih r ?_ p h1
            simp only [List.length_cons] at hl
            omega
        · rw [if_neg hsep] at hp
          cases hs : splitCS (d :: r) with
          | nil => exact absurd hs (splitCS_ne_nil (d :: r))
          | cons p0 ps =>
            rw [hs] at hp
            have hlen : (d :: r).length ≤ n := by
              simp only [List.length_cons] at hl ⊢
              omega
            rcases List.mem_cons.mp hp with h1 | h1
            · subst h1
              have hp0 : hasCS p0 = false :=
                ih (d :: r) hlen p0 (hs ▸ List.mem_cons_self p0 ps)
              rcases splitCS_head_shape d r p0 ps hs with h2 | ⟨q, h2⟩
              · subst h2
                rfl
              · subst h2
                simp only [hasCS, Bool.or_eq_false_iff]
                refine ⟨?_, hp0⟩
                by_cases hc : c = ','
                · by_cases hd : d = ' '
                  · exact absurd ⟨hc, hd⟩ hsep
                  · simp [hd]
                · simp [hc]
            · exact ih (d :: r) hlen p (hs ▸ List.mem_cons_of_mem p0 h1)

theorem splitCS_seg : ∀ (n : Nat) (l : List Char), l.length ≤ n →
    ∀ p ps, splitCS l = p :: ps →
      (∃ w, l = p ++ w) ∧ ∀ q ∈ ps, ∃ u w, l = u ++ q ++ w := by
  intro n
  induction n with
  | zero =>
    intro l hl p ps h
    have hnil : l = [] := List.length_eq_zero.mp (Nat.le_zero.mp hl)
    subst hnil
    simp only [splitCS] at h
    obtain ⟨h1, h2⟩ := List.cons.injEq .. ▸ h
    subst h1
    refine ⟨⟨[], rfl⟩, fun q hq => ?_⟩
    rw [← h2] at hq
    simp at hq
  | succ n ih =>
    intro l hl p ps h
    cases l with
    | nil =>
      simp only [splitCS] at h
      obtain ⟨h1, h2⟩ := List.cons.injEq .. ▸ h
      subst h1
      refine ⟨⟨[], rfl⟩, fun q hq => ?_⟩
      rw [← h2] at hq
      simp at hq
    | cons c t =>
      cases t with
      | nil =>
        simp only [splitCS] at h
        obtain ⟨h1, h2⟩ := List.cons.injEq .. ▸ h
        subst h1
        refine ⟨⟨[], rfl⟩, fun q hq => ?_⟩
        rw [← h2] at hq
        simp at hq
      | cons d r =>
        have hlr : r.length ≤ n := by
          simp only [List.length_cons] at hl
          omega
        have hldr : (d :: r).length ≤ n := by
          simp only [List.length_cons] at hl ⊢
          omega
        simp only [splitCS] at h
        by_cases hsep : c = ',' ∧ d = ' '
        · rw [if_pos hsep] at h
          obtain ⟨h1, h2⟩ := List.cons.injEq .. ▸ h
          subst h1
          refine ⟨⟨c :: d :: r, rfl⟩, fun q hq => ?_⟩
          rw [← h2] at hq
          cases hs : splitCS r with
          | nil => exact absurd hs (splitCS_ne_nil r)
          | cons p0 ps0 =>
            rw [hs] at hq
            obtain ⟨⟨w0, hw0⟩, hrest⟩ := ih r hlr p0 ps0 hs
            rcases List.mem_cons.mp hq with h3 | h3
            · subst h3
              exact ⟨[c, d], w0, by simp [hw0]⟩
            · obtain ⟨u, w, huw⟩ := hrest q h3
              exact ⟨c :: d :: u, w, by simp [huw]⟩
        · rw [if_neg hsep] at h
          cases hs : splitCS (d :: r) with
          | nil => exact absurd hs (splitCS_ne_nil (d :: r))
          | cons p0 ps0 =>
            rw [hs] at h
            obtain ⟨h1, h2⟩ := List.cons.injEq .. ▸ h
            obtain ⟨⟨w0, hw0⟩, hrest⟩ := ih (d :: r) hldr p0 ps0 hs
            constructor
            · refine ⟨w0, ?_⟩
              rw [← h1, List.cons_append, ← hw0]
            · intro q hq
              rw [← h2] at hq
              obtain ⟨u, w, huw⟩ := hrest q hq
              exact ⟨c :: u, w, by simp [huw]⟩

theorem splitCS_self : ∀ (n : Nat) (l : List Char), l.length ≤ n →
    hasCS l = false → splitCS l = [l] := by
  intro n
  induction n with
  | zero =>
    intro l hl _
    have hnil : l = [] := List.length_eq_zero.mp (Nat.le_zero.mp hl)
    subst hnil
    rfl
  | succ n ih =>
    intro l hl h
    cases l with
    | nil => rfl
    | cons c t =>
      cases t with
      | nil => rfl
      | cons d r =>
        simp only [hasCS, Bool.or_eq_false_iff] at h
        have hsep : ¬ (c = ',' ∧ d = ' ') := by
          intro hx
          rw [hx.1, hx.2] at h
          simp at h
        simp only [splitCS, if_neg hsep]
        have hdr : splitCS (d :: r) = [d :: r] := by
          refine ih (d :: r) ?_ h.2
          simp only [List.length_cons] at hl ⊢
          omega
        rw [hdr]

theorem dropWhile_seg (q : Char → Bool) :
    ∀ l : List Char, ∃ u, l = u ++ l.dropWhile q := by
  intro l
  induction l with
  | nil => exact ⟨[], rfl⟩
  | cons c r ih =>
    cases hc : q c with
    | true =>
      have he : (c :: r).dropWhile q = r.dropWhile q := by
        simp [List.dropWhile, hc]
      rw [he]
      obtain ⟨u, hu⟩ := ih
      exact ⟨c :: u, by rw [List.cons_append, ← hu]⟩
    | false =>
      have he : (c :: r).dropWhile q = c :: r := by
        simp [List.dropWhile, hc]
      rw [he]
      exact ⟨[], rfl⟩

theorem stripChars_seg (l : List Char) : ∃ u w, l = u ++ stripChars l ++ w := by
  obtain ⟨u, hu⟩ := dropWhile_seg isSpacePy l
  obtain ⟨u2, hu2⟩ := dropWhile_seg isSpacePy (l.dropWhile isSpacePy).reverse
  refine ⟨u, u2.reverse, ?_⟩
  have h3 : l.dropWhile isSpacePy =
      ((l.dropWhile isSpacePy).reverse.dropWhile isSpacePy).reverse ++
        u2.reverse := by
    have h4 := congrArg List.reverse hu2
    rw [List.reverse_reverse, List.reverse_append] at h4
    exact h4
  rw [stripChars, List.append_assoc, ← h3]
  exact hu

theorem dropLast_seg : ∀ l : List Char, ∃ w, l = l.dropLast ++ w := by
  intro l
  induction l with
  | nil => exact ⟨[], rfl⟩
  | cons c r ih =>
    cases r with
    | nil => exact ⟨[c], rfl⟩
    | cons d r2 =>
      obtain ⟨w, hw⟩ := ih
      refine ⟨w, ?_⟩
      have he : (c :: d :: r2).dropLast = c :: (d :: r2).dropLast := rfl
      rw [he, List.cons_append]
      exact congrArg (fun t => c :: t) hw

theorem unwrap_seg (x : List Char) : ∃ u w, x = u ++ unwrap x ++ w := by
  unfold unwrap
  by_cases h : x.head? = some '<' ∧ x.getLast? = some '>'
  · rw [if_pos h]
    cases x with
    | nil => simp at h
    | cons c t =>
      obtain ⟨w, hw⟩ := dropLast_seg t
      refine ⟨[c], w, ?_⟩
      show c :: t = [c] ++ t.dropLast ++ w
      simp only [List.cons_append, List.nil_append]
      exact congrArg (fun r => c :: r) hw
  · rw [if_neg h]
    exact ⟨[], [], by simp⟩

theorem unwrap_id (x : List Char)
    (hb : ¬ (x.head? = some '<' ∧ x.getLast? = some '>')) : unwrap x = x := by
  unfold unwrap
  rw [if_neg hb]

theorem map_singleton_inv (f : List Char → List Char) :
    ∀ (L : List (List Char)) (x : List Char), L.map f = [x] →
      ∃ y, L = [y] ∧ f y = x := by
  intro L x h
  cases L with
  | nil => simp at h
  | cons y t =>
    cases t with
    | nil =>
      simp only [List.map_cons, List.map_nil, List.cons.injEq, and_true] at h
      exact ⟨y, rfl, h⟩
    | cons z t2 => simp at h

theorem splitCS_mem_seg (l p : List Char) (hp : p ∈ splitCS l) :
    ∃ u w, l = u ++ p ++ w := by
  cases hs : splitCS l with
  | nil => exact absurd hs (splitCS_ne_nil l)
  | cons p0 ps =>
    obtain ⟨⟨w0, hw0⟩, hrest⟩ := splitCS_seg l.length l (le_refl _) p0 ps hs
    rw [hs] at hp
    rcases List.mem_cons.mp hp with h1 | h1
    · subst h1
      exact ⟨[], w0, by simpa using hw0⟩
    · exact hrest p h1

theorem seg_trans {l m x : List Char} (h1 : ∃ u w, l = u ++ m ++ w)
    (h2 : ∃ u w, m = u ++ x ++ w) : ∃ u w, l = u ++ x ++ w := by
  obtain ⟨u1, w1, e1⟩ := h1
  obtain ⟨u2, w2, e2⟩ := h2
  refine ⟨u1 ++ u2, w2 ++ w1, ?_⟩
  rw [e1, e2]
  simp [List.append_assoc]

/-- C8 (amended): decoding an already-decoded single-value list yields the
same list, provided the value is non-empty, carries no leading or trailing
whitespace, and is not bracketed by `<` and `>`.  (The original unconditional
claim fails: decoded values produced by the bracket-unwrapping step can again
be bracketed — see the counterexample, `decode "<<a>>" = ["<a>"]` — and can
carry outer whitespace or be empty, each of which decodes differently.) -/
theorem c8_amended (s x : List Char) (h : decodeChars s = [x]) (hne : x ≠ [])
    (hstrip : stripChars x = x)
    (hb : ¬ (x.head? = some '<' ∧ x.getLast? = some '>')) :
    decodeChars x = [x] := by
  unfold decodeChars at h
  obtain ⟨y, hy, hyx⟩ := map_singleton_inv unwrap _ x h
  have hymem : y ∈ ((splitCS (removeParens s)).map stripChars).filter
      (fun t => !t.isEmpty) := by
    rw [hy]
    exact List.mem_singleton.mpr rfl
  have hy2 : y ∈ (splitCS (removeParens s)).map stripChars :=
    (List.mem_filter.mp hymem).1
  obtain ⟨p, hpmem, hpy⟩ := List.mem_map.mp hy2
  have hseg1 : ∃ u w, removeParens s = u ++ p ++ w :=
    splitCS_mem_seg _ p hpmem
  have hseg2 : ∃ u w, p = u ++ y ++ w := by
    rw [← hpy]
    exact stripChars_seg p
  have hseg3 : ∃ u w, y = u ++ x ++ w := by
    rw [← hyx]
    exact unwrap_seg y
  have hsegpx : ∃ u w, p = u ++ x ++ w := seg_trans hseg2 hseg3
  have hsegx : ∃ u w, removeParens s = u ++ x ++ w := seg_trans hseg1 hsegpx
  have hpf : parenfree x = true := by
    obtain ⟨u, w, he⟩ := hsegx
    have hrp := removeParens_parenfree s
    rw [he] at hrp
    exact parenfree_mid u x w hrp
  have hnoCS : hasCS x = false := by
    have hpCS : hasCS p = false :=
      splitCS_noCS (removeParens s).length _ (le_refl _) p hpmem
    obtain ⟨u2, w2, e2⟩ := hsegpx
    rw [e2] at hpCS
    exact hasCS_mid u2 x w2 hpCS
  unfold decodeChars
  rw [removeParens_id x hpf, splitCS_self x.length x (le_refl _) hnoCS]
  simp only [List.map_cons, List.map_nil, hstrip]
  have hxe : (!x.isEmpty) = true := by
    cases x with
    | nil => exact absurd rfl hne
    | cons c t => rfl
  rw [List.filter_cons, if_pos hxe]
  simp only [List.filter_nil, List.map_cons, List.map_nil]
  rw [unwrap_id x hb]

/-- C8 witness: the single-value list `["a,b"]` (a decoded value containing a
bare comma, which the strict `", "` split leaves alone) decodes to itself
again. -/
theorem c8_amended_witness :
    decodeChars ['a', ',', 'b'] = [['a', ',', 'b']] ∧
    stripChars ['a', ',', 'b'] = ['a', ',', 'b'] ∧
    decodeChars ['a', ',', 'b'] = [['a', ',', 'b']] :=
  ⟨by decide, by decide,
    c8_amended ['a', ',', 'b'] ['a', ',', 'b'] (by decide) (by decide)
      (by decide) (by decide)⟩
